import Mathlib

/-!
Verification of the ledger-and-settlement engine of the roommate expense
splitter. The definitions below are a shallow embedding of the TypeScript
source (the React single-file app): `calcBalances`, `simplify`,
`addMember`, `removeMember` and `importJSON`, with monetary amounts
modelled as exact rationals and JavaScript objects modelled as ordered
association lists (JS object keys are in insertion order and unique).
-/

namespace Splitter

/-- A registry member: `interface Member { id: string; name: string }`. -/
structure Member where
  id : String
  name : String
deriving DecidableEq

/-- `interface ExpenseParticipant { memberId: string; weight: number; included: boolean }`.
A JS `weight` of `undefined` behaves exactly like `0` in every expression the
source evaluates (`p.weight || 0` and `(p.weight || 0) || 1`), so it is
modelled as the rational `0`. -/
structure ExpenseParticipant where
  memberId : String
  weight : ℚ
  included : Bool
deriving DecidableEq

/-- `interface Expense` of the source: description, amount, single payer,
participant list, creation time. -/
structure Expense where
  id : String
  description : String
  amount : ℚ
  payerId : String
  participants : List ExpenseParticipant
  createdAt : ℤ
deriving DecidableEq

/-- A settlement transaction `{ from, to, amount }` (the fields `from` and
`to` are Lean keywords, hence `fr` and `dst`). -/
structure Txn where
  fr : String
  dst : String
  amount : ℚ
deriving DecidableEq

/-- Balances object, as its ordered entry list (JS object entries are in
insertion order with unique keys). -/
abbrev SL := List (String × ℚ)

/-- The keys of a balances object. -/
def keys (l : SL) : List String := l.map Prod.fst

/-- The sum of the values of a balances object (`sum of balances`). -/
def sumVals (l : SL) : ℚ := (l.map Prod.snd).sum

/-- `bal[k] += d` on a JS object whose key `k` already exists: adds `d` to
every entry whose key is `k` (with unique keys, exactly one). -/
def aupd (l : SL) (k : String) (d : ℚ) : SL :=
  l.map (fun p => if p.1 = k then (p.1, p.2 + d) else p)

/-- The body of the `for (const e of expenses)` loop of `calcBalances`:
skip non-positive amounts, credit the payer with the full amount, then
debit every included participant by `amount * (w / totalWeight)` where
`w = (p.weight || 0) || 1` and
`totalWeight = included.reduce((acc,p) => acc + (p.weight || 0), 0) || included.length`. -/
def applyExpense (bal : SL) (e : Expense) : SL :=
  if e.amount ≤ 0 then bal
  else
    let bal1 := aupd bal e.payerId e.amount
    let included := e.participants.filter (fun p => p.included)
    let sumW : ℚ := (included.map (fun p => p.weight)).sum
    let totalWeight : ℚ := if sumW = 0 then (included.length : ℚ) else sumW
    included.foldl
      (fun b p =>
        aupd b p.memberId (-(e.amount * ((if p.weight = 0 then 1 else p.weight) / totalWeight))))
      bal1

/-- `function calcBalances(members, expenses)` of the source: initialise every
member's balance to `0` in member order, then fold the expenses. -/
def calcBalances (members : List Member) (expenses : List Expense) : SL :=
  expenses.foldl applyExpense (members.map (fun m => (m.id, (0 : ℚ))))

/-- The tolerance of `simplify`: `const eps = 0.005`. -/
def eps : ℚ := 1 / 200

/-- The creditor list built by `simplify`: entries with `amt > eps`, in
object-entry order. -/
def creditorsOf (bal : SL) : SL := bal.filter (fun p => eps < p.2)

/-- The debtor list built by `simplify`: entries with `amt < -eps`, stored
with the negated (positive) amount, in object-entry order. -/
def debtorsOf (bal : SL) : SL :=
  (bal.filter (fun p => p.2 < -eps)).map (fun p => (p.1, -p.2))

/-- Insert an entry into a list sorted descending by amount, before the first
strictly smaller entry: together with `sortDesc` this reproduces the stable
JS `sort((a, b) => b.amt - a.amt)`. -/
def insertDesc (x : String × ℚ) : SL → SL
  | [] => [x]
  | y :: ys => if y.2 ≤ x.2 then x :: y :: ys else y :: insertDesc x ys

/-- Stable descending sort by amount. -/
def sortDesc (l : SL) : SL := l.foldr insertDesc []

/-- The two-cursor greedy loop of `simplify`, phrased recursively with an
explicit fuel (the loop consumes at least one list element per iteration, so
`debtors.length + creditors.length` is enough fuel). Each step pays
`min(d.amt, c.amt)`, records the transaction, and advances each cursor whose
remaining amount dropped to `≤ eps`. Since the payment is the minimum, at
least one side drops to `0 ≤ eps`, so the branch advancing neither cursor is
unreachable; it is mapped to the both-advance branch. -/
def goF : Nat → SL → SL → List Txn
  | 0, _, _ => []
  | _ + 1, [], _ => []
  | _ + 1, _ :: _, [] => []
  | n + 1, (d, da) :: ds, (c, ca) :: cs =>
    let pay := min da ca
    let da' := da - pay
    let ca' := ca - pay
    ⟨d, c, pay⟩ ::
      (if da' ≤ eps then
        (if ca' ≤ eps then goF n ds cs else goF n ds ((c, ca') :: cs))
      else
        (if ca' ≤ eps then goF n ((d, da') :: ds) cs else goF n ds cs))

/-- The greedy loop with adequate fuel. -/
def goLoop (D C : SL) : List Txn := goF (D.length + C.length) D C

/-- `function simplify(balances)` of the source. -/
def simplify (bal : SL) : List Txn :=
  goLoop (sortDesc (debtorsOf bal)) (sortDesc (creditorsOf bal))

/-- Apply one settlement transfer to the balances: debit `from` (their
negative balance rises by `amount`), credit `to` (their positive balance
falls by `amount`). -/
def applyTxn (bal : SL) (t : Txn) : SL :=
  aupd (aupd bal t.fr t.amount) t.dst (-t.amount)

/-- Apply a whole settlement plan to the balances. -/
def applyTxns (bal : SL) (ts : List Txn) : SL := ts.foldl applyTxn bal

/-- JavaScript `String.prototype.trim()`: strip leading and trailing
whitespace. -/
def jsTrim (s : String) : String :=
  ⟨((s.data.dropWhile Char.isWhitespace).reverse.dropWhile Char.isWhitespace).reverse⟩

/-- `function addMember()` of the source, with the generated `uid()` value
made an explicit argument: trim the name, silently return on an empty name,
otherwise append the new member. -/
def addMember (newId : String) (members : List Member) (memberName : String) : List Member :=
  let name := jsTrim memberName
  if name = "" then members else members ++ [⟨newId, name⟩]

/-- The application state carried by the component: members and expenses. -/
structure AppState where
  members : List Member
  expenses : List Expense
deriving DecidableEq

/-- `function removeMember(id)` of the source: drop the member, prune their
participant entries from every expense, reassign the payer to the first
remaining member (JS note: if that member's id is the empty string it is
falsy and the `|| e.payerId` fallback keeps the old payer), and drop every
expense whose participant list became empty. -/
def removeMember (st : AppState) (id : String) : AppState :=
  { members := st.members.filter (fun m => m.id ≠ id)
    expenses :=
      ((st.expenses.map (fun e =>
        { e with
          participants := e.participants.filter (fun p => p.memberId ≠ id)
          payerId :=
            if e.payerId = id then
              match st.members.find? (fun m => m.id != id) with
              | some m => if m.id = "" then e.payerId else m.id
              | none => e.payerId
            else e.payerId })).filter (fun e => 0 < e.participants.length)) }

/-- A JSON value, the result of `JSON.parse`. -/
inductive JVal where
  | jnull : JVal
  | jbool : Bool → JVal
  | jnum : ℚ → JVal
  | jstr : String → JVal
  | jarr : List JVal → JVal
  | jobj : List (String × JVal) → JVal

/-- Property lookup on a parsed JSON object; `JSON.parse` keeps the last of
duplicate keys, which the left fold reproduces. -/
def lookupLast (fs : List (String × JVal)) (k : String) : Option JVal :=
  fs.foldl (fun acc p => if p.1 = k then some p.2 else acc) none

/-- `data.field` on a parsed JSON value that is not `null`: objects look the
field up, every other value yields `undefined` (modelled as `none`). -/
def getProp : JVal → String → Option JVal
  | .jobj fs, k => lookupLast fs k
  | _, _ => none

/-- `function importJSON(file)` of the source, after `JSON.parse` succeeded:
property access on `null` throws and the surrounding `try` keeps the state;
otherwise the state is replaced exactly when both `data.members` and
`data.expenses` pass `Array.isArray`, and kept otherwise. The state is the
raw pair of stored JSON arrays (the source stores the parsed arrays without
further validation). -/
def importJSON (data : JVal) (st : JVal × JVal) : JVal × JVal :=
  match data with
  | .jnull => st
  | _ =>
    match getProp data "members", getProp data "expenses" with
    | some (.jarr ms), some (.jarr es) => (.jarr ms, .jarr es)
    | _, _ => st

/-- The field named `k` is present at top level and array-typed (the
validation the spec requires of the import). -/
def hasArrayField (data : JVal) (k : String) : Prop :=
  ∃ xs, getProp data k = some (.jarr xs)

/-- Total amount moved by a settlement plan. -/
def sumAmts (ts : List Txn) : ℚ := (ts.map Txn.amount).sum

/-- Total amount a member receives from a settlement plan. -/
def recvBy (ts : List Txn) (k : String) : ℚ :=
  (ts.map (fun t => if t.dst = k then t.amount else 0)).sum

/-- Total amount a member pays out under a settlement plan. -/
def paidBy (ts : List Txn) (k : String) : ℚ :=
  (ts.map (fun t => if t.fr = k then t.amount else 0)).sum

/-- The balance entries `simplify` treats as settled: `-eps ≤ v ≤ eps`. -/
def smallsOf (bal : SL) : SL := bal.filter (fun p => -eps ≤ p.2 ∧ p.2 ≤ eps)

theorem eps_pos : 0 < eps := by norm_num [eps]

theorem sumVals_nil : sumVals [] = 0 := rfl

theorem sumVals_cons (p : String × ℚ) (l : SL) : sumVals (p :: l) = p.2 + sumVals l := by
  simp [sumVals]

theorem keys_cons (p : String × ℚ) (l : SL) : keys (p :: l) = p.1 :: keys l := rfl

theorem keys_aupd (l : SL) (k : String) (d : ℚ) : keys (aupd l k d) = keys l := by
  induction l with
  | nil => rfl
  | cons p t ih =>
    by_cases h : p.1 = k <;> simp [aupd, keys_cons, h] at ih ⊢ <;> exact ih

theorem aupd_of_not_mem (l : SL) (k : String) (d : ℚ) (h : k ∉ keys l) : aupd l k d = l := by
  induction l with
  | nil => rfl
  | cons p t ih =>
    simp only [keys_cons, List.mem_cons, not_or] at h
    simp only [aupd, List.map_cons]
    rw [if_neg (fun hh => h.1 hh.symm)]
    have := ih h.2
    simp only [aupd] at this
    rw [this]

theorem sumVals_aupd (l : SL) (k : String) (d : ℚ) (hnd : (keys l).Nodup) (hk : k ∈ keys l) :
    sumVals (aupd l k d) = sumVals l + d := by
  induction l with
  | nil => simp [keys] at hk
  | cons p t ih =>
    simp only [keys_cons, List.nodup_cons] at hnd
    simp only [keys_cons, List.mem_cons] at hk
    rcases hk with hk | hk
    · simp only [aupd, List.map_cons, if_pos hk.symm]
      have ht : aupd t k d = t := aupd_of_not_mem t k d (by rw [hk]; exact hnd.1)
      simp only [aupd] at ht
      rw [ht, sumVals_cons, sumVals_cons]
      ring
    · have hne : ¬ p.1 = k := by
        intro hh; exact hnd.1 (hh ▸ hk)
      simp only [aupd, List.map_cons, if_neg hne]
      rw [sumVals_cons, sumVals_cons]
      have := ih hnd.2 hk
      simp only [aupd] at this
      rw [this]
      ring

theorem mem_keys_of_mem {l : SL} {p : String × ℚ} (h : p ∈ l) : p.1 ∈ keys l :=
  List.mem_map_of_mem Prod.fst h

theorem key_val_unique {l : SL} (hnd : (keys l).Nodup) {k : String} {v w : ℚ}
    (hv : (k, v) ∈ l) (hw : (k, w) ∈ l) : v = w := by
  induction l with
  | nil => simp at hv
  | cons p t ih =>
    simp only [keys_cons, List.nodup_cons] at hnd
    simp only [List.mem_cons] at hv hw
    rcases hv with hv | hv <;> rcases hw with hw | hw
    · rw [← hw] at hv
      exact (Prod.mk.injEq k v k w ▸ hv).2
    · have hk : k ∈ keys t := by simpa using mem_keys_of_mem hw
      have hp1 : p.1 = k := by rw [← hv]
      exact absurd hk (hp1 ▸ hnd.1)
    · have hk : k ∈ keys t := by simpa using mem_keys_of_mem hv
      have hp1 : p.1 = k := by rw [← hw]
      exact absurd hk (hp1 ▸ hnd.1)
    · exact ih hnd.2 hv hw

theorem exists_of_mem_keys {l : SL} {k : String} (h : k ∈ keys l) : ∃ v, (k, v) ∈ l := by
  rcases List.mem_map.mp h with ⟨p, hp, rfl⟩
  exact ⟨p.2, hp⟩

theorem insertDesc_perm (x : String × ℚ) (l : SL) : (insertDesc x l).Perm (x :: l) := by
  induction l with
  | nil => exact List.Perm.refl _
  | cons y ys ih =>
    by_cases h : y.2 ≤ x.2
    · simp only [insertDesc, if_pos h]
      exact List.Perm.refl _
    · simp only [insertDesc, if_neg h]
      exact (ih.cons y).trans (List.Perm.swap x y ys)

theorem sortDesc_perm (l : SL) : (sortDesc l).Perm l := by
  induction l with
  | nil => exact List.Perm.refl _
  | cons a t ih =>
    have : sortDesc (a :: t) = insertDesc a (sortDesc t) := rfl
    rw [this]
    exact (insertDesc_perm a (sortDesc t)).trans (ih.cons a)

theorem sortDesc_length (l : SL) : (sortDesc l).length = l.length :=
  (sortDesc_perm l).length_eq

theorem sortDesc_mem {l : SL} {p : String × ℚ} : p ∈ sortDesc l ↔ p ∈ l :=
  (sortDesc_perm l).mem_iff

theorem sortDesc_sumVals (l : SL) : sumVals (sortDesc l) = sumVals l := by
  unfold sumVals
  exact ((sortDesc_perm l).map Prod.snd).sum_eq

theorem sortDesc_keys_nodup {l : SL} (h : (keys l).Nodup) : (keys (sortDesc l)).Nodup := by
  unfold keys
  exact (((sortDesc_perm l).map Prod.fst).nodup_iff).mpr h

theorem recvBy_nil (k : String) : recvBy [] k = 0 := rfl

theorem recvBy_cons (t : Txn) (ts : List Txn) (k : String) :
    recvBy (t :: ts) k = (if t.dst = k then t.amount else 0) + recvBy ts k := by
  simp [recvBy]

theorem paidBy_nil (k : String) : paidBy [] k = 0 := rfl

theorem paidBy_cons (t : Txn) (ts : List Txn) (k : String) :
    paidBy (t :: ts) k = (if t.fr = k then t.amount else 0) + paidBy ts k := by
  simp [paidBy]

theorem recvBy_eq_zero {ts : List Txn} {k : String} (h : ∀ t ∈ ts, t.dst ≠ k) :
    recvBy ts k = 0 := by
  induction ts with
  | nil => rfl
  | cons t ts ih =>
    rw [recvBy_cons, if_neg (h t (List.mem_cons_self t ts)),
      ih (fun u hu => h u (List.mem_cons_of_mem t hu))]
    ring

theorem paidBy_eq_zero {ts : List Txn} {k : String} (h : ∀ t ∈ ts, t.fr ≠ k) :
    paidBy ts k = 0 := by
  induction ts with
  | nil => rfl
  | cons t ts ih =>
    rw [paidBy_cons, if_neg (h t (List.mem_cons_self t ts)),
      ih (fun u hu => h u (List.mem_cons_of_mem t hu))]
    ring

theorem goF_length : ∀ (n : Nat) (D C : SL), (goF n D C).length ≤ D.length + C.length - 1 := by
  intro n
  induction n with
  | zero => intro D C; simp [goF]
  | succ n ih =>
    intro D C
    rcases D with _ | ⟨⟨d, da⟩, ds⟩
    · simp [goF]
    rcases C with _ | ⟨⟨c, ca⟩, cs⟩
    · simp [goF]
    simp only [goF, List.length_cons]
    split_ifs with h1 h2 h3
    · have := ih ds cs; simp only [List.length_cons] at *; omega
    · have := ih ds ((c, ca - min da ca) :: cs); simp only [List.length_cons] at *; omega
    · have := ih ((d, da - min da ca) :: ds) cs; simp only [List.length_cons] at *; omega
    · have := ih ds cs; simp only [List.length_cons] at *; omega

theorem goF_mem_keys : ∀ (n : Nat) (D C : SL), ∀ t ∈ goF n D C,
    t.fr ∈ keys D ∧ t.dst ∈ keys C := by
  intro n
  induction n with
  | zero => intro D C t ht; simp [goF] at ht
  | succ n ih =>
    intro D C t ht
    rcases D with _ | ⟨⟨d, da⟩, ds⟩
    · simp [goF] at ht
    rcases C with _ | ⟨⟨c, ca⟩, cs⟩
    · simp [goF] at ht
    simp only [goF] at ht
    split_ifs at ht with h1 h2 h3 <;>
      rcases List.mem_cons.mp ht with rfl | ht
    · exact ⟨by simp [keys_cons], by simp [keys_cons]⟩
    · rcases ih ds cs t ht with ⟨hf, hd⟩
      exact ⟨by simp [keys_cons, hf], by simp [keys_cons, hd]⟩
    · exact ⟨by simp [keys_cons], by simp [keys_cons]⟩
    · rcases ih ds ((c, ca - min da ca) :: cs) t ht with ⟨hf, hd⟩
      rw [keys_cons] at hd
      exact ⟨by simp [keys_cons, hf], by simp [keys_cons]; simpa using hd⟩
    · exact ⟨by simp [keys_cons], by simp [keys_cons]⟩
    · rcases ih ((d, da - min da ca) :: ds) cs t ht with ⟨hf, hd⟩
      rw [keys_cons] at hf
      exact ⟨by simp [keys_cons]; simpa using hf, by simp [keys_cons, hd]⟩
    · exact ⟨by simp [keys_cons], by simp [keys_cons]⟩
    · rcases ih ds cs t ht with ⟨hf, hd⟩
      exact ⟨by simp [keys_cons, hf], by simp [keys_cons, hd]⟩

theorem goF_recv_zero (n : Nat) (D C : SL) (k : String) (h : k ∉ keys C) :
    recvBy (goF n D C) k = 0 :=
  recvBy_eq_zero (fun t ht hdst => h (hdst ▸ (goF_mem_keys n D C t ht).2))

theorem goF_paid_zero (n : Nat) (D C : SL) (k : String) (h : k ∉ keys D) :
    paidBy (goF n D C) k = 0 :=
  paidBy_eq_zero (fun t ht hfr => h (hfr ▸ (goF_mem_keys n D C t ht).1))

theorem goF_amount_gt : ∀ (n : Nat) (D C : SL),
    (∀ p ∈ D, eps < p.2) → (∀ p ∈ C, eps < p.2) →
    ∀ t ∈ goF n D C, eps < t.amount := by
  intro n
  induction n with
  | zero => intro D C _ _ t ht; simp [goF] at ht
  | succ n ih =>
    intro D C hD hC t ht
    rcases D with _ | ⟨⟨d, da⟩, ds⟩
    · simp [goF] at ht
    rcases C with _ | ⟨⟨c, ca⟩, cs⟩
    · simp [goF] at ht
    have hda : eps < da := hD (d, da) (List.mem_cons_self _ _)
    have hca : eps < ca := hC (c, ca) (List.mem_cons_self _ _)
    have hDs : ∀ p ∈ ds, eps < p.2 := fun p hp => hD p (List.mem_cons_of_mem _ hp)
    have hCs : ∀ p ∈ cs, eps < p.2 := fun p hp => hC p (List.mem_cons_of_mem _ hp)
    simp only [goF] at ht
    split_ifs at ht with h1 h2 h3 <;>
      rcases List.mem_cons.mp ht with rfl | ht
    · exact lt_min hda hca
    · exact ih ds cs hDs hCs t ht
    · exact lt_min hda hca
    · refine ih ds ((c, ca - min da ca) :: cs) hDs ?_ t ht
      intro p hp
      rcases List.mem_cons.mp hp with rfl | hp
      · exact not_le.mp h2
      · exact hCs p hp
    · exact lt_min hda hca
    · refine ih ((d, da - min da ca) :: ds) cs ?_ hCs t ht
      intro p hp
      rcases List.mem_cons.mp hp with rfl | hp
      · exact not_le.mp h1
      · exact hDs p hp
    · exact lt_min hda hca
    · exact ih ds cs hDs hCs t ht

theorem goF_recv_le : ∀ (n : Nat) (D C : SL), (keys C).Nodup → (∀ p ∈ C, 0 ≤ p.2) →
    ∀ p ∈ C, recvBy (goF n D C) p.1 ≤ p.2 := by
  intro n
  induction n with
  | zero => intro D C _ h0 p hp; rw [show goF 0 D C = [] from rfl, recvBy_nil]; exact h0 p hp
  | succ n ih =>
    intro D C hnd h0 p hp
    rcases D with _ | ⟨⟨d, da⟩, ds⟩
    · rw [show goF (n + 1) [] C = [] from rfl, recvBy_nil]; exact h0 p hp
    rcases C with _ | ⟨⟨c, ca⟩, cs⟩
    · simp at hp
    have hcnotin : c ∉ keys cs := by
      rw [keys_cons] at hnd; exact (List.nodup_cons.mp hnd).1
    have hndcs : (keys cs).Nodup := by
      rw [keys_cons] at hnd; exact (List.nodup_cons.mp hnd).2
    have h0cs : ∀ q ∈ cs, 0 ≤ q.2 := fun q hq => h0 q (List.mem_cons_of_mem _ hq)
    have hca0 : 0 ≤ ca := h0 (c, ca) (List.mem_cons_self _ _)
    have hpayca : min da ca ≤ ca := min_le_right da ca
    simp only [goF]
    split_ifs with h1 h2 h3 <;> rw [recvBy_cons] <;> dsimp only <;>
      rcases List.mem_cons.mp hp with rfl | hp
    · rw [if_pos rfl, goF_recv_zero n ds cs c hcnotin]
      dsimp only; linarith
    · rw [if_neg (fun hh : c = p.1 => hcnotin (hh ▸ mem_keys_of_mem hp))]
      have := ih ds cs hndcs h0cs p hp
      linarith
    · rw [if_pos rfl]
      have hnd' : (keys ((c, ca - min da ca) :: cs)).Nodup := by
        rw [keys_cons]; exact List.nodup_cons.mpr ⟨hcnotin, hndcs⟩
      have h0' : ∀ q ∈ (c, ca - min da ca) :: cs, 0 ≤ q.2 := by
        intro q hq
        rcases List.mem_cons.mp hq with rfl | hq
        · dsimp only; linarith
        · exact h0cs q hq
      have := ih ds ((c, ca - min da ca) :: cs) hnd' h0' (c, ca - min da ca)
        (List.mem_cons_self _ _)
      dsimp only at this ⊢; linarith
    · rw [if_neg (fun hh : c = p.1 => hcnotin (hh ▸ mem_keys_of_mem hp))]
      have hnd' : (keys ((c, ca - min da ca) :: cs)).Nodup := by
        rw [keys_cons]; exact List.nodup_cons.mpr ⟨hcnotin, hndcs⟩
      have h0' : ∀ q ∈ (c, ca - min da ca) :: cs, 0 ≤ q.2 := by
        intro q hq
        rcases List.mem_cons.mp hq with rfl | hq
        · dsimp only; linarith
        · exact h0cs q hq
      have := ih ds ((c, ca - min da ca) :: cs) hnd' h0' p (List.mem_cons_of_mem _ hp)
      linarith
    · rw [if_pos rfl, goF_recv_zero n ((d, da - min da ca) :: ds) cs c hcnotin]
      dsimp only; linarith
    · rw [if_neg (fun hh : c = p.1 => hcnotin (hh ▸ mem_keys_of_mem hp))]
      have := ih ((d, da - min da ca) :: ds) cs hndcs h0cs p hp
      linarith
    · rw [if_pos rfl, goF_recv_zero n ds cs c hcnotin]
      dsimp only; linarith
    · rw [if_neg (fun hh : c = p.1 => hcnotin (hh ▸ mem_keys_of_mem hp))]
      have := ih ds cs hndcs h0cs p hp
      linarith

theorem goF_paid_le : ∀ (n : Nat) (D C : SL), (keys D).Nodup → (∀ p ∈ D, 0 ≤ p.2) →
    ∀ p ∈ D, paidBy (goF n D C) p.1 ≤ p.2 := by
  intro n
  induction n with
  | zero => intro D C _ h0 p hp; rw [show goF 0 D C = [] from rfl, paidBy_nil]; exact h0 p hp
  | succ n ih =>
    intro D C hnd h0 p hp
    rcases D with _ | ⟨⟨d, da⟩, ds⟩
    · simp at hp
    rcases C with _ | ⟨⟨c, ca⟩, cs⟩
    · rw [show goF (n + 1) ((d, da) :: ds) [] = [] from rfl, paidBy_nil]; exact h0 p hp
    have hdnotin : d ∉ keys ds := by
      rw [keys_cons] at hnd; exact (List.nodup_cons.mp hnd).1
    have hndds : (keys ds).Nodup := by
      rw [keys_cons] at hnd; exact (List.nodup_cons.mp hnd).2
    have h0ds : ∀ q ∈ ds, 0 ≤ q.2 := fun q hq => h0 q (List.mem_cons_of_mem _ hq)
    have hda0 : 0 ≤ da := h0 (d, da) (List.mem_cons_self _ _)
    have hpayda : min da ca ≤ da := min_le_left da ca
    simp only [goF]
    split_ifs with h1 h2 h3 <;> rw [paidBy_cons] <;> dsimp only <;>
      rcases List.mem_cons.mp hp with rfl | hp
    · rw [if_pos rfl, goF_paid_zero n ds cs d hdnotin]
      dsimp only; linarith
    · rw [if_neg (fun hh : d = p.1 => hdnotin (hh ▸ mem_keys_of_mem hp))]
      have := ih ds cs hndds h0ds p hp
      linarith
    · rw [if_pos rfl, goF_paid_zero n ds ((c, ca - min da ca) :: cs) d hdnotin]
      dsimp only; linarith
    · rw [if_neg (fun hh : d = p.1 => hdnotin (hh ▸ mem_keys_of_mem hp))]
      have := ih ds ((c, ca - min da ca) :: cs) hndds h0ds p hp
      linarith
    · rw [if_pos rfl]
      have hnd' : (keys ((d, da - min da ca) :: ds)).Nodup := by
        rw [keys_cons]; exact List.nodup_cons.mpr ⟨hdnotin, hndds⟩
      have h0' : ∀ q ∈ (d, da - min da ca) :: ds, 0 ≤ q.2 := by
        intro q hq
        rcases List.mem_cons.mp hq with rfl | hq
        · dsimp only; linarith
        · exact h0ds q hq
      have := ih ((d, da - min da ca) :: ds) cs hnd' h0' (d, da - min da ca)
        (List.mem_cons_self _ _)
      dsimp only at this ⊢; linarith
    · rw [if_neg (fun hh : d = p.1 => hdnotin (hh ▸ mem_keys_of_mem hp))]
      have hnd' : (keys ((d, da - min da ca) :: ds)).Nodup := by
        rw [keys_cons]; exact List.nodup_cons.mpr ⟨hdnotin, hndds⟩
      have h0' : ∀ q ∈ (d, da - min da ca) :: ds, 0 ≤ q.2 := by
        intro q hq
        rcases List.mem_cons.mp hq with rfl | hq
        · dsimp only; linarith
        · exact h0ds q hq
      have := ih ((d, da - min da ca) :: ds) cs hnd' h0' p (List.mem_cons_of_mem _ hp)
      linarith
    · rw [if_pos rfl, goF_paid_zero n ds cs d hdnotin]
      dsimp only; linarith
    · rw [if_neg (fun hh : d = p.1 => hdnotin (hh ▸ mem_keys_of_mem hp))]
      have := ih ds cs hndds h0ds p hp
      linarith

theorem sumVals_nonneg {l : SL} (h : ∀ p ∈ l, 0 ≤ p.2) : 0 ≤ sumVals l := by
  induction l with
  | nil => simp [sumVals]
  | cons p t ih =>
    rw [sumVals_cons]
    have h1 := h p (List.mem_cons_self _ _)
    have h2 := ih (fun q hq => h q (List.mem_cons_of_mem _ hq))
    linarith

theorem sumAmts_nil : sumAmts [] = 0 := rfl

theorem sumAmts_cons (t : Txn) (ts : List Txn) : sumAmts (t :: ts) = t.amount + sumAmts ts := by
  simp [sumAmts]

theorem goF_total : ∀ (n : Nat) (D C : SL), D.length + C.length ≤ n →
    (∀ p ∈ D, eps < p.2) → (∀ p ∈ C, eps < p.2) →
    sumAmts (goF n D C) ≤ sumVals D ∧ sumAmts (goF n D C) ≤ sumVals C ∧
      (sumVals D - sumAmts (goF n D C) ≤ (D.length : ℚ) * eps ∨
       sumVals C - sumAmts (goF n D C) ≤ (C.length : ℚ) * eps) := by
  intro n
  induction n with
  | zero =>
    intro D C hf _ _
    have hD0 : D = [] := List.eq_nil_of_length_eq_zero (by omega)
    have hC0 : C = [] := List.eq_nil_of_length_eq_zero (by omega)
    subst hD0; subst hC0
    refine ⟨le_refl _, le_refl _, Or.inl ?_⟩
    simp [goF, sumAmts, sumVals]
  | succ n ih =>
    intro D C hf hD hC
    rcases D with _ | ⟨⟨d, da⟩, ds⟩
    · have hC0 : 0 ≤ sumVals C :=
        sumVals_nonneg (fun p hp => le_of_lt (lt_trans eps_pos (hC p hp)))
      rw [show goF (n + 1) [] C = [] from rfl]
      refine ⟨le_refl _, by rw [sumAmts_nil]; exact hC0, Or.inl ?_⟩
      rw [sumAmts_nil]
      simp [sumVals]
    rcases C with _ | ⟨⟨c, ca⟩, cs⟩
    · have hD0 : 0 ≤ sumVals ((d, da) :: ds) :=
        sumVals_nonneg (fun p hp => le_of_lt (lt_trans eps_pos (hD p hp)))
      rw [show goF (n + 1) ((d, da) :: ds) [] = [] from rfl]
      refine ⟨by rw [sumAmts_nil]; exact hD0, le_refl _, Or.inr ?_⟩
      rw [sumAmts_nil]
      simp [sumVals]
    have hDs : ∀ p ∈ ds, eps < p.2 := fun p hp => hD p (List.mem_cons_of_mem _ hp)
    have hCs : ∀ p ∈ cs, eps < p.2 := fun p hp => hC p (List.mem_cons_of_mem _ hp)
    have hpayd : min da ca ≤ da := min_le_left da ca
    have hpayc : min da ca ≤ ca := min_le_right da ca
    simp only [goF, sumAmts_cons]
    split_ifs with h1 h2 h3
    · have hfuel : ds.length + cs.length ≤ n := by
        simp only [List.length_cons] at hf; omega
      rcases ih ds cs hfuel hDs hCs with ⟨iD, iC, idisj⟩
      refine ⟨by rw [sumVals_cons]; dsimp only; linarith,
        by rw [sumVals_cons]; dsimp only; linarith, ?_⟩
      rcases idisj with hL | hR
      · left
        rw [sumVals_cons, List.length_cons]
        dsimp only
        push_cast
        linarith
      · right
        rw [sumVals_cons, List.length_cons]
        dsimp only
        push_cast
        linarith
    · have hfuel : ds.length + ((c, ca - min da ca) :: cs).length ≤ n := by
        simp only [List.length_cons] at hf ⊢; omega
      have hC' : ∀ p ∈ (c, ca - min da ca) :: cs, eps < p.2 := by
        intro p hp
        rcases List.mem_cons.mp hp with rfl | hp
        · exact not_le.mp h2
        · exact hCs p hp
      rcases ih ds ((c, ca - min da ca) :: cs) hfuel hDs hC' with ⟨iD, iC, idisj⟩
      rw [sumVals_cons] at iC idisj
      dsimp only at iC idisj
      refine ⟨by rw [sumVals_cons]; dsimp only; linarith,
        by rw [sumVals_cons]; dsimp only; linarith, ?_⟩
      rcases idisj with hL | hR
      · left
        rw [sumVals_cons, List.length_cons]
        dsimp only
        push_cast
        linarith
      · right
        rw [sumVals_cons, List.length_cons]
        rw [List.length_cons] at hR
        dsimp only
        push_cast at hR ⊢
        linarith
    · have hfuel : ((d, da - min da ca) :: ds).length + cs.length ≤ n := by
        simp only [List.length_cons] at hf ⊢; omega
      have hD' : ∀ p ∈ (d, da - min da ca) :: ds, eps < p.2 := by
        intro p hp
        rcases List.mem_cons.mp hp with rfl | hp
        · exact not_le.mp h1
        · exact hDs p hp
      rcases ih ((d, da - min da ca) :: ds) cs hfuel hD' hCs with ⟨iD, iC, idisj⟩
      rw [sumVals_cons] at iD idisj
      dsimp only at iD idisj
      refine ⟨by rw [sumVals_cons]; dsimp only; linarith,
        by rw [sumVals_cons]; dsimp only; linarith, ?_⟩
      rcases idisj with hL | hR
      · left
        rw [sumVals_cons, List.length_cons]
        rw [List.length_cons] at hL
        dsimp only
        push_cast at hL ⊢
        linarith
      · right
        rw [sumVals_cons, List.length_cons]
        dsimp only
        push_cast
        linarith
    · exfalso
      rcases le_total da ca with h | h
      · exact h1 (by rw [min_eq_left h]; simpa using le_of_lt eps_pos)
      · exact h3 (by rw [min_eq_right h]; simpa using le_of_lt eps_pos)

theorem list_sum_map_add {α : Type} (l : List α) (f g : α → ℚ) :
    (l.map (fun x => f x + g x)).sum = (l.map f).sum + (l.map g).sum := by
  induction l with
  | nil => simp
  | cons a t ih => simp only [List.map_cons, List.sum_cons, ih]; ring

theorem list_sum_map_sub {α : Type} (l : List α) (f g : α → ℚ) :
    (l.map (fun x => f x - g x)).sum = (l.map f).sum - (l.map g).sum := by
  induction l with
  | nil => simp
  | cons a t ih => simp only [List.map_cons, List.sum_cons, ih]; ring

theorem sum_indicator_not_mem (C : SL) (k : String) (a : ℚ) (h : k ∉ keys C) :
    (C.map (fun c => if k = c.1 then a else 0)).sum = 0 := by
  induction C with
  | nil => simp
  | cons c t ih =>
    rw [keys_cons, List.mem_cons, not_or] at h
    simp only [List.map_cons, List.sum_cons, if_neg h.1, ih h.2, zero_add]

theorem sum_indicator_mem (C : SL) (k : String) (a : ℚ) (hnd : (keys C).Nodup)
    (hk : k ∈ keys C) : (C.map (fun c => if k = c.1 then a else 0)).sum = a := by
  induction C with
  | nil => simp [keys] at hk
  | cons c t ih =>
    rw [keys_cons, List.nodup_cons] at hnd
    rw [keys_cons, List.mem_cons] at hk
    rcases hk with hk | hk
    · rw [List.map_cons, List.sum_cons, if_pos hk,
        sum_indicator_not_mem t k a (hk ▸ hnd.1), add_zero]
    · have hne : ¬ k = c.1 := fun hh => hnd.1 (hh ▸ hk)
      rw [List.map_cons, List.sum_cons, if_neg hne, ih hnd.2 hk, zero_add]

theorem sum_recv (C : SL) (ts : List Txn) (hnd : (keys C).Nodup)
    (h : ∀ t ∈ ts, t.dst ∈ keys C) :
    (C.map (fun c => recvBy ts c.1)).sum = sumAmts ts := by
  induction ts with
  | nil => simp [recvBy_nil, sumAmts_nil]
  | cons t ts ih =>
    simp only [recvBy_cons, sumAmts_cons]
    rw [list_sum_map_add, ih (fun u hu => h u (List.mem_cons_of_mem _ hu)),
      sum_indicator_mem C t.dst t.amount hnd (h t (List.mem_cons_self _ _))]

theorem sum_paid (D : SL) (ts : List Txn) (hnd : (keys D).Nodup)
    (h : ∀ t ∈ ts, t.fr ∈ keys D) :
    (D.map (fun c => paidBy ts c.1)).sum = sumAmts ts := by
  induction ts with
  | nil => simp [paidBy_nil, sumAmts_nil]
  | cons t ts ih =>
    simp only [paidBy_cons, sumAmts_cons]
    rw [list_sum_map_add, ih (fun u hu => h u (List.mem_cons_of_mem _ hu)),
      sum_indicator_mem D t.fr t.amount hnd (h t (List.mem_cons_self _ _))]

theorem sub_recv_le_total (C : SL) (ts : List Txn) (hnd : (keys C).Nodup)
    (hdst : ∀ t ∈ ts, t.dst ∈ keys C) (hrec : ∀ p ∈ C, recvBy ts p.1 ≤ p.2)
    (p : String × ℚ) (hp : p ∈ C) :
    p.2 - recvBy ts p.1 ≤ sumVals C - sumAmts ts := by
  have hsum : (C.map (fun c => c.2 - recvBy ts c.1)).sum = sumVals C - sumAmts ts := by
    rw [list_sum_map_sub, sum_recv C ts hnd hdst]
    rfl
  have hmem : p.2 - recvBy ts p.1 ∈ C.map (fun c => c.2 - recvBy ts c.1) :=
    List.mem_map_of_mem _ hp
  have hnn : ∀ x ∈ C.map (fun c => c.2 - recvBy ts c.1), 0 ≤ x := by
    intro x hx
    rcases List.mem_map.mp hx with ⟨q, hq, rfl⟩
    have := hrec q hq
    linarith
  calc p.2 - recvBy ts p.1 ≤ (C.map (fun c => c.2 - recvBy ts c.1)).sum :=
        List.single_le_sum hnn _ hmem
    _ = sumVals C - sumAmts ts := hsum

theorem sub_paid_le_total (D : SL) (ts : List Txn) (hnd : (keys D).Nodup)
    (hfr : ∀ t ∈ ts, t.fr ∈ keys D) (hpd : ∀ p ∈ D, paidBy ts p.1 ≤ p.2)
    (p : String × ℚ) (hp : p ∈ D) :
    p.2 - paidBy ts p.1 ≤ sumVals D - sumAmts ts := by
  have hsum : (D.map (fun c => c.2 - paidBy ts c.1)).sum = sumVals D - sumAmts ts := by
    rw [list_sum_map_sub, sum_paid D ts hnd hfr]
    rfl
  have hmem : p.2 - paidBy ts p.1 ∈ D.map (fun c => c.2 - paidBy ts c.1) :=
    List.mem_map_of_mem _ hp
  have hnn : ∀ x ∈ D.map (fun c => c.2 - paidBy ts c.1), 0 ≤ x := by
    intro x hx
    rcases List.mem_map.mp hx with ⟨q, hq, rfl⟩
    have := hpd q hq
    linarith
  calc p.2 - paidBy ts p.1 ≤ (D.map (fun c => c.2 - paidBy ts c.1)).sum :=
        List.single_le_sum hnn _ hmem
    _ = sumVals D - sumAmts ts := hsum

theorem applyTxn_eq (bal : SL) (t : Txn) :
    applyTxn bal t = bal.map (fun p =>
      (p.1, p.2 + (if t.fr = p.1 then t.amount else 0) - (if t.dst = p.1 then t.amount else 0))) := by
  unfold applyTxn aupd
  rw [List.map_map]
  apply List.map_congr_left
  rintro ⟨k, v⟩ -
  dsimp only [Function.comp]
  split_ifs with h1 h2 h3 <;> simp_all [Prod.ext_iff, eq_comm]
  ring

theorem applyTxns_eq (ts : List Txn) : ∀ bal : SL,
    applyTxns bal ts = bal.map (fun p => (p.1, p.2 + paidBy ts p.1 - recvBy ts p.1)) := by
  induction ts with
  | nil =>
    intro bal
    show bal = _
    simp [paidBy_nil, recvBy_nil]
  | cons t ts ih =>
    intro bal
    show applyTxns (applyTxn bal t) ts = _
    rw [ih (applyTxn bal t), applyTxn_eq, List.map_map]
    apply List.map_congr_left
    intro p _
    simp only [Function.comp, paidBy_cons, recvBy_cons, Prod.mk.injEq]
    refine ⟨by trivial, by ring⟩

theorem mem_creditorsOf {bal : SL} {p : String × ℚ} :
    p ∈ creditorsOf bal ↔ p ∈ bal ∧ eps < p.2 := by
  simp [creditorsOf, List.mem_filter]

theorem mem_smallsOf {bal : SL} {p : String × ℚ} :
    p ∈ smallsOf bal ↔ p ∈ bal ∧ (-eps ≤ p.2 ∧ p.2 ≤ eps) := by
  simp [smallsOf, List.mem_filter]

theorem mem_debtorsOf {bal : SL} {q : String × ℚ} :
    q ∈ debtorsOf bal ↔ ((q.1, -q.2) ∈ bal ∧ -q.2 < -eps) := by
  constructor
  · intro h
    rcases List.mem_map.mp h with ⟨p, hp, hpq⟩
    rcases List.mem_filter.mp hp with ⟨hpb, hcond⟩
    have hcond' : p.2 < -eps := by simpa using hcond
    have h1 : p.1 = q.1 := by rw [← hpq]
    have h2 : -p.2 = q.2 := by rw [← hpq]
    have h3 : -q.2 = p.2 := by linarith
    have hpq' : (q.1, -q.2) = p := by
      rw [Prod.ext_iff]
      exact ⟨h1.symm, by simpa using h3⟩
    constructor
    · rw [hpq']; exact hpb
    · rw [h3]; exact hcond'
  · rintro ⟨hb, hlt⟩
    refine List.mem_map.mpr ⟨(q.1, -q.2), List.mem_filter.mpr ⟨hb, by simpa using hlt⟩, ?_⟩
    simp

theorem keys_debtorsOf (bal : SL) :
    keys (debtorsOf bal) = keys (bal.filter (fun p => p.2 < -eps)) := by
  simp [debtorsOf, keys, List.map_map, Function.comp]

theorem keys_creditorsOf_nodup {bal : SL} (h : (keys bal).Nodup) :
    (keys (creditorsOf bal)).Nodup := by
  unfold keys creditorsOf
  exact h.sublist ((List.filter_sublist bal).map Prod.fst)

theorem keys_debtorsOf_nodup {bal : SL} (h : (keys bal).Nodup) :
    (keys (debtorsOf bal)).Nodup := by
  rw [keys_debtorsOf]
  unfold keys
  exact h.sublist ((List.filter_sublist bal).map Prod.fst)

theorem bucket_sum (bal : SL) :
    sumVals bal = sumVals (creditorsOf bal) - sumVals (debtorsOf bal) + sumVals (smallsOf bal) := by
  induction bal with
  | nil => simp [creditorsOf, debtorsOf, smallsOf, sumVals]
  | cons p t ih =>
    simp only [creditorsOf, debtorsOf, smallsOf, List.filter_cons] at ih ⊢
    by_cases hc : eps < p.2
    · have hd : ¬ p.2 < -eps := by have := eps_pos; push_neg; linarith
      have hs : ¬ (-eps ≤ p.2 ∧ p.2 ≤ eps) := fun hh => absurd hc (not_lt.mpr hh.2)
      rw [if_pos (by simpa using hc), if_neg (by simpa using hd), if_neg (by simpa using hs)]
      simp only [sumVals_cons]
      rw [ih]
      ring
    · by_cases hd : p.2 < -eps
      · have hs : ¬ (-eps ≤ p.2 ∧ p.2 ≤ eps) := fun hh => absurd hd (not_lt.mpr hh.1)
        rw [if_neg (by simpa using hc), if_pos (by simpa using hd), if_neg (by simpa using hs)]
        simp only [List.map_cons, sumVals_cons]
        rw [ih]
        ring
      · have hs : -eps ≤ p.2 ∧ p.2 ≤ eps := ⟨not_lt.mp hd, not_lt.mp hc⟩
        rw [if_neg (by simpa using hc), if_neg (by simpa using hd), if_pos (by simpa using hs)]
        simp only [sumVals_cons]
        rw [ih]
        ring

theorem bucket_len (bal : SL) :
    bal.length
      = (creditorsOf bal).length + (debtorsOf bal).length + (smallsOf bal).length := by
  induction bal with
  | nil => simp [creditorsOf, debtorsOf, smallsOf]
  | cons p t ih =>
    simp only [creditorsOf, debtorsOf, smallsOf, List.filter_cons] at ih ⊢
    by_cases hc : eps < p.2
    · have hd : ¬ p.2 < -eps := by have := eps_pos; push_neg; linarith
      have hs : ¬ (-eps ≤ p.2 ∧ p.2 ≤ eps) := fun hh => absurd hc (not_lt.mpr hh.2)
      rw [if_pos (by simpa using hc), if_neg (by simpa using hd), if_neg (by simpa using hs)]
      simp only [List.length_cons, ih]
      omega
    · by_cases hd : p.2 < -eps
      · have hs : ¬ (-eps ≤ p.2 ∧ p.2 ≤ eps) := fun hh => absurd hd (not_lt.mpr hh.1)
        rw [if_neg (by simpa using hc), if_pos (by simpa using hd), if_neg (by simpa using hs)]
        simp only [List.length_cons, List.length_map, ih, List.length_map]
        omega
      · have hs : -eps ≤ p.2 ∧ p.2 ≤ eps := ⟨not_lt.mp hd, not_lt.mp hc⟩
        rw [if_neg (by simpa using hc), if_neg (by simpa using hd), if_pos (by simpa using hs)]
        simp only [List.length_cons, ih]
        omega

theorem sumVals_le_of_bound {l : SL} {b : ℚ} (h : ∀ p ∈ l, p.2 ≤ b) :
    sumVals l ≤ (l.length : ℚ) * b := by
  induction l with
  | nil => simp [sumVals]
  | cons p t ih =>
    rw [sumVals_cons, List.length_cons]
    have h1 := h p (List.mem_cons_self _ _)
    have h2 := ih (fun q hq => h q (List.mem_cons_of_mem _ hq))
    push_cast
    linarith

theorem le_sumVals_of_bound {l : SL} {b : ℚ} (h : ∀ p ∈ l, b ≤ p.2) :
    (l.length : ℚ) * b ≤ sumVals l := by
  induction l with
  | nil => simp [sumVals]
  | cons p t ih =>
    rw [sumVals_cons, List.length_cons]
    have h1 := h p (List.mem_cons_self _ _)
    have h2 := ih (fun q hq => h q (List.mem_cons_of_mem _ hq))
    push_cast
    linarith

theorem mem_keys_sortDesc {l : SL} {k : String} :
    k ∈ keys (sortDesc l) ↔ k ∈ keys l := by
  unfold keys
  exact ((sortDesc_perm l).map Prod.fst).mem_iff

theorem debtors_gt {bal : SL} : ∀ p ∈ sortDesc (debtorsOf bal), eps < p.2 := by
  intro p hp
  rw [sortDesc_mem] at hp
  rcases mem_debtorsOf.mp hp with ⟨_, hlt⟩
  linarith

theorem creditors_gt {bal : SL} : ∀ p ∈ sortDesc (creditorsOf bal), eps < p.2 := by
  intro p hp
  rw [sortDesc_mem] at hp
  exact (mem_creditorsOf.mp hp).2

theorem simplify_eq (bal : SL) :
    simplify bal
      = goF ((sortDesc (debtorsOf bal)).length + (sortDesc (creditorsOf bal)).length)
          (sortDesc (debtorsOf bal)) (sortDesc (creditorsOf bal)) := rfl

theorem keys_debtors_val {bal : SL} (hnd : (keys bal).Nodup) {q : String × ℚ} (hq : q ∈ bal)
    (h : q.1 ∈ keys (debtorsOf bal)) : q.2 < -eps := by
  rcases exists_of_mem_keys h with ⟨a, ha⟩
  rcases mem_debtorsOf.mp ha with ⟨hb, hlt⟩
  have huniq : q.2 = -a := key_val_unique hnd (by simpa using hq) hb
  rw [huniq]
  simpa using hlt

theorem keys_creditors_val {bal : SL} (hnd : (keys bal).Nodup) {q : String × ℚ} (hq : q ∈ bal)
    (h : q.1 ∈ keys (creditorsOf bal)) : eps < q.2 := by
  rcases exists_of_mem_keys h with ⟨a, ha⟩
  rcases mem_creditorsOf.mp ha with ⟨hb, hlt⟩
  have huniq : q.2 = a := key_val_unique hnd (by simpa using hq) hb
  rw [huniq]
  exact hlt

/-- The count of members the spec calls active: `|balance| > eps`. -/
def countActive (bal : SL) : Nat := (bal.filter (fun p => eps < |p.2|)).length

theorem countActive_eq (bal : SL) :
    countActive bal = (debtorsOf bal).length + (creditorsOf bal).length := by
  induction bal with
  | nil => simp [countActive, debtorsOf, creditorsOf]
  | cons p t ih =>
    simp only [countActive, debtorsOf, creditorsOf, List.filter_cons] at ih ⊢
    by_cases hc : eps < p.2
    · have habs : eps < |p.2| := lt_of_lt_of_le hc (le_abs_self p.2)
      have hd : ¬ p.2 < -eps := by have := eps_pos; push_neg; linarith
      rw [if_pos (by simpa using habs), if_neg (by simpa using hd), if_pos (by simpa using hc)]
      simp only [List.length_cons, List.length_map] at ih ⊢
      omega
    · by_cases hd : p.2 < -eps
      · have habs : eps < |p.2| := by
          rw [abs_of_neg (by have := eps_pos; linarith)]
          linarith
        rw [if_pos (by simpa using habs), if_pos (by simpa using hd), if_neg (by simpa using hc)]
        simp only [List.length_cons, List.length_map, List.map_cons] at ih ⊢
        omega
      · have habs : ¬ eps < |p.2| := by
          rw [not_lt]
          exact abs_le.mpr ⟨not_lt.mp hd, not_lt.mp hc⟩
        rw [if_neg (by simpa using habs), if_neg (by simpa using hd), if_neg (by simpa using hc)]
        exact ih

/-- C5: for every balances mapping, `simplify` returns at most `N - 1`
transactions, where `N` is the number of members whose balance has absolute
value greater than the tolerance `eps` (natural-number subtraction, so the
bound reads `0` when `N = 0`). -/
theorem C5_transaction_bound (bal : SL) :
    (simplify bal).length ≤ countActive bal - 1 := by
  rw [simplify_eq, countActive_eq]
  have h := goF_length ((sortDesc (debtorsOf bal)).length + (sortDesc (creditorsOf bal)).length)
    (sortDesc (debtorsOf bal)) (sortDesc (creditorsOf bal))
  have h2 : (sortDesc (debtorsOf bal)).length = (debtorsOf bal).length := sortDesc_length _
  have h3 : (sortDesc (creditorsOf bal)).length = (creditorsOf bal).length := sortDesc_length _
  omega

/-- C9: every transaction returned by `simplify` has amount strictly greater
than the tolerance `eps` (hence strictly positive). -/
theorem C9_positive_amounts (bal : SL) : ∀ t ∈ simplify bal, eps < t.amount := by
  rw [simplify_eq]
  exact goF_amount_gt _ _ _ debtors_gt creditors_gt

/-- Witness for C9 at a concrete ledger: the single transaction produced for
balances `a = 1, b = -1` moves an amount above the tolerance. -/
theorem C9_witness :
    (Txn.mk "b" "a" 1 ∈ simplify [("a", 1), ("b", -1)]) ∧
      eps < (Txn.mk "b" "a" 1).amount := by
  have hmem : Txn.mk "b" "a" 1 ∈ simplify [("a", 1), ("b", -1)] := by
    norm_num +decide [simplify, goLoop, goF, sortDesc, insertDesc, debtorsOf, creditorsOf, eps,
      List.filter, List.foldr]
  exact ⟨hmem, C9_positive_amounts [("a", 1), ("b", -1)] (Txn.mk "b" "a" 1) hmem⟩

/-- C10: on a balances mapping (unique keys), no member appears both as a
sender and as a receiver across the transactions of `simplify`; in
particular `from` differs from `to` in every transaction. -/
theorem C10_disjoint_roles (bal : SL) (hnd : (keys bal).Nodup) :
    ∀ t ∈ simplify bal, ∀ u ∈ simplify bal, t.fr ≠ u.dst := by
  intro t ht u hu
  rw [simplify_eq] at ht hu
  have h1 := (goF_mem_keys _ _ _ t ht).1
  have h2 := (goF_mem_keys _ _ _ u hu).2
  rw [mem_keys_sortDesc] at h1 h2
  intro hEq
  rcases exists_of_mem_keys h1 with ⟨a, ha⟩
  rcases exists_of_mem_keys h2 with ⟨b, hbmem⟩
  rcases mem_debtorsOf.mp ha with ⟨hab, halt⟩
  rcases mem_creditorsOf.mp hbmem with ⟨hbb, hblt⟩
  rw [← hEq] at hbb
  have heq2 : -a = b := key_val_unique hnd hab hbb
  have h0 := eps_pos
  simp only at halt hblt
  linarith

/-- Witness for C10 at a concrete ledger: in the plan for balances
`a = 1, b = -1`, the only transaction goes from `b` to `a` and the two sets
of roles are disjoint. -/
theorem C10_witness :
    (Txn.mk "b" "a" 1 ∈ simplify [("a", 1), ("b", -1)]) ∧
      (Txn.mk "b" "a" 1).fr ≠ (Txn.mk "b" "a" 1).dst := by
  have hmem : Txn.mk "b" "a" 1 ∈ simplify [("a", 1), ("b", -1)] := by
    norm_num +decide [simplify, goLoop, goF, sortDesc, insertDesc, debtorsOf, creditorsOf, eps,
      List.filter, List.foldr]
  exact ⟨hmem, C10_disjoint_roles [("a", 1), ("b", -1)] (by decide)
    (Txn.mk "b" "a" 1) hmem (Txn.mk "b" "a" 1) hmem⟩

/-- C4 (amended): for a balances mapping (unique keys) whose values sum to
zero, applying every transfer of `simplify` leaves every member's balance
within `N * eps` of zero, where `N` is the number of balance entries. The
per-member bound `eps` claimed by the spec is refuted by
`C4_counterexample`; `N * eps` is what the greedy loop actually guarantees,
because every cursor advance may abandon up to `eps`. -/
theorem C4_settlement_amended (bal : SL) (hsum : sumVals bal = 0)
    (hnd : (keys bal).Nodup) :
    ∀ p ∈ applyTxns bal (simplify bal), |p.2| ≤ (bal.length : ℚ) * eps := by
  intro p hp
  rw [applyTxns_eq] at hp
  rcases List.mem_map.mp hp with ⟨q, hq, rfl⟩
  dsimp only
  have hepos := eps_pos
  have hndC : (keys (sortDesc (creditorsOf bal))).Nodup :=
    sortDesc_keys_nodup (keys_creditorsOf_nodup hnd)
  have hndD : (keys (sortDesc (debtorsOf bal))).Nodup :=
    sortDesc_keys_nodup (keys_debtorsOf_nodup hnd)
  have h0C : ∀ x ∈ sortDesc (creditorsOf bal), 0 ≤ x.2 :=
    fun x hx => le_of_lt (lt_trans hepos (creditors_gt x hx))
  have h0D : ∀ x ∈ sortDesc (debtorsOf bal), 0 ≤ x.2 :=
    fun x hx => le_of_lt (lt_trans hepos (debtors_gt x hx))
  have hlenD : (sortDesc (debtorsOf bal)).length = (debtorsOf bal).length := sortDesc_length _
  have hlenC : (sortDesc (creditorsOf bal)).length = (creditorsOf bal).length := sortDesc_length _
  have hsumD : sumVals (sortDesc (debtorsOf bal)) = sumVals (debtorsOf bal) := sortDesc_sumVals _
  have hsumC : sumVals (sortDesc (creditorsOf bal)) = sumVals (creditorsOf bal) :=
    sortDesc_sumVals _
  have hbs := bucket_sum bal
  rw [hsum] at hbs
  have hsl : sumVals (smallsOf bal) ≤ ((smallsOf bal).length : ℚ) * eps :=
    sumVals_le_of_bound (fun r hr => (mem_smallsOf.mp hr).2.2)
  have hsg : ((smallsOf bal).length : ℚ) * (-eps) ≤ sumVals (smallsOf bal) :=
    le_sumVals_of_bound (fun r hr => (mem_smallsOf.mp hr).2.1)
  have hlen := bucket_len bal
  have hlenDle : (debtorsOf bal).length ≤ bal.length := by omega
  have hlenCle : (creditorsOf bal).length ≤ bal.length := by omega
  have hlenCSle : (creditorsOf bal).length + (smallsOf bal).length ≤ bal.length := by omega
  have hlenDSle : (debtorsOf bal).length + (smallsOf bal).length ≤ bal.length := by omega
  have pD : ((debtorsOf bal).length : ℚ) * eps ≤ (bal.length : ℚ) * eps :=
    mul_le_mul_of_nonneg_right (by exact_mod_cast hlenDle) (le_of_lt hepos)
  have pC : ((creditorsOf bal).length : ℚ) * eps ≤ (bal.length : ℚ) * eps :=
    mul_le_mul_of_nonneg_right (by exact_mod_cast hlenCle) (le_of_lt hepos)
  have pCS : ((creditorsOf bal).length : ℚ) * eps + ((smallsOf bal).length : ℚ) * eps
      ≤ (bal.length : ℚ) * eps := by
    rw [← add_mul]
    exact mul_le_mul_of_nonneg_right (by exact_mod_cast hlenCSle) (le_of_lt hepos)
  have pDS : ((debtorsOf bal).length : ℚ) * eps + ((smallsOf bal).length : ℚ) * eps
      ≤ (bal.length : ℚ) * eps := by
    rw [← add_mul]
    exact mul_le_mul_of_nonneg_right (by exact_mod_cast hlenDSle) (le_of_lt hepos)
  have cD : ((sortDesc (debtorsOf bal)).length : ℚ) = ((debtorsOf bal).length : ℚ) := by
    exact_mod_cast hlenD
  have cC : ((sortDesc (creditorsOf bal)).length : ℚ) = ((creditorsOf bal).length : ℚ) := by
    exact_mod_cast hlenC
  rcases goF_total ((sortDesc (debtorsOf bal)).length + (sortDesc (creditorsOf bal)).length)
      (sortDesc (debtorsOf bal)) (sortDesc (creditorsOf bal)) (le_refl _) debtors_gt
      creditors_gt with ⟨tD, tC, tdisj⟩
  rw [hsumD] at tD
  rw [hsumC] at tC
  rw [hsumD, hsumC, cD, cC] at tdisj
  have hDkey : sumVals (debtorsOf bal) - sumAmts (simplify bal) ≤ (bal.length : ℚ) * eps := by
    rw [simplify_eq]
    rcases tdisj with hL | hR
    · linarith
    · linarith
  have hCkey : sumVals (creditorsOf bal) - sumAmts (simplify bal) ≤ (bal.length : ℚ) * eps := by
    rw [simplify_eq]
    rcases tdisj with hL | hR
    · linarith
    · linarith
  by_cases hcq : eps < q.2
  · have hqC : q ∈ sortDesc (creditorsOf bal) :=
      sortDesc_mem.mpr (mem_creditorsOf.mpr ⟨hq, hcq⟩)
    have hpaid : paidBy (simplify bal) q.1 = 0 := by
      rw [simplify_eq]
      apply goF_paid_zero
      intro hmem
      rw [mem_keys_sortDesc] at hmem
      have := keys_debtors_val hnd hq hmem
      linarith
    have hrecle : recvBy (simplify bal) q.1 ≤ q.2 := by
      rw [simplify_eq]
      exact goF_recv_le _ _ _ hndC h0C q hqC
    have hrecmain : q.2 - recvBy (simplify bal) q.1
        ≤ sumVals (creditorsOf bal) - sumAmts (simplify bal) := by
      rw [simplify_eq]
      rw [← hsumC]
      refine sub_recv_le_total _ _ hndC (fun t ht => (goF_mem_keys _ _ _ t ht).2)
        (goF_recv_le _ _ _ hndC h0C) q hqC
    rw [hpaid, abs_le]
    have hnn : 0 ≤ (bal.length : ℚ) * eps := by positivity
    constructor
    · linarith
    · linarith
  · by_cases hdq : q.2 < -eps
    · have hqD : (q.1, -q.2) ∈ sortDesc (debtorsOf bal) := by
        refine sortDesc_mem.mpr (mem_debtorsOf.mpr ⟨?_, ?_⟩)
        · simpa using hq
        · simpa using hdq
      have hrec0 : recvBy (simplify bal) q.1 = 0 := by
        rw [simplify_eq]
        apply goF_recv_zero
        intro hmem
        rw [mem_keys_sortDesc] at hmem
        have := keys_creditors_val hnd hq hmem
        linarith
      have hpaidle : paidBy (simplify bal) q.1 ≤ -q.2 := by
        rw [simplify_eq]
        have := goF_paid_le
          ((sortDesc (debtorsOf bal)).length + (sortDesc (creditorsOf bal)).length)
          (sortDesc (debtorsOf bal)) (sortDesc (creditorsOf bal))
          hndD h0D (q.1, -q.2) hqD
        simpa using this
      have hpaidmain : -q.2 - paidBy (simplify bal) q.1
          ≤ sumVals (debtorsOf bal) - sumAmts (simplify bal) := by
        rw [simplify_eq, ← hsumD]
        have := sub_paid_le_total (sortDesc (debtorsOf bal))
          (goF ((sortDesc (debtorsOf bal)).length + (sortDesc (creditorsOf bal)).length)
            (sortDesc (debtorsOf bal)) (sortDesc (creditorsOf bal)))
          hndD
          (fun t ht => (goF_mem_keys
            ((sortDesc (debtorsOf bal)).length + (sortDesc (creditorsOf bal)).length)
            (sortDesc (debtorsOf bal)) (sortDesc (creditorsOf bal)) t ht).1)
          (goF_paid_le ((sortDesc (debtorsOf bal)).length + (sortDesc (creditorsOf bal)).length)
            (sortDesc (debtorsOf bal)) (sortDesc (creditorsOf bal)) hndD h0D)
          (q.1, -q.2) hqD
        simpa using this
      rw [hrec0, abs_le]
      have hnn : 0 ≤ (bal.length : ℚ) * eps := by positivity
      constructor
      · linarith
      · linarith
    · have hpaid : paidBy (simplify bal) q.1 = 0 := by
        rw [simplify_eq]
        apply goF_paid_zero
        intro hmem
        rw [mem_keys_sortDesc] at hmem
        have := keys_debtors_val hnd hq hmem
        linarith
      have hrec0 : recvBy (simplify bal) q.1 = 0 := by
        rw [simplify_eq]
        apply goF_recv_zero
        intro hmem
        rw [mem_keys_sortDesc] at hmem
        have := keys_creditors_val hnd hq hmem
        linarith
      rw [hpaid, hrec0]
      have habs : |q.2| ≤ eps := abs_le.mpr ⟨not_lt.mp hdq, not_lt.mp hcq⟩
      have hone : (1 : ℚ) ≤ (bal.length : ℚ) := by
        have : 0 < bal.length := List.length_pos.mpr (List.ne_nil_of_mem hq)
        exact_mod_cast this
      have : (1 : ℚ) * eps ≤ (bal.length : ℚ) * eps :=
        mul_le_mul_of_nonneg_right hone (le_of_lt hepos)
      rw [one_mul] at this
      calc |q.2 + 0 - 0| = |q.2| := by norm_num
        _ ≤ eps := habs
        _ ≤ (bal.length : ℚ) * eps := this

/-- Counterexample to C4 as stated: these five balances have unique keys and
sum exactly to zero, yet after applying the whole settlement plan the member
`c3` still holds `1/125 = 0.008`, which exceeds the tolerance
`eps = 0.005`. The two debtors of `0.504` are matched against the two
creditors of `0.5` and both residuals of `0.004` are abandoned, so `c3` is
never paid. -/
theorem C4_counterexample :
    sumVals [("c1", (1 : ℚ)/2), ("c2", 1/2), ("c3", 1/125), ("d1", -63/125), ("d2", -63/125)] = 0
    ∧ (keys [("c1", (1 : ℚ)/2), ("c2", 1/2), ("c3", 1/125), ("d1", -63/125),
        ("d2", -63/125)]).Nodup
    ∧ ("c3", (1 : ℚ)/125) ∈ applyTxns
        [("c1", (1 : ℚ)/2), ("c2", 1/2), ("c3", 1/125), ("d1", -63/125), ("d2", -63/125)]
        (simplify [("c1", (1 : ℚ)/2), ("c2", 1/2), ("c3", 1/125), ("d1", -63/125), ("d2", -63/125)])
    ∧ ¬ |(1 : ℚ)/125| ≤ eps := by
  refine ⟨by norm_num [sumVals], by decide, ?_, ?_⟩
  · norm_num +decide [simplify, goLoop, goF, sortDesc, insertDesc, debtorsOf, creditorsOf, eps,
      applyTxns, applyTxn, aupd, List.filter, List.foldr, List.foldl]
  · rw [abs_of_pos (by norm_num)]
    norm_num [eps]

/-- Witness for C4 (amended) at a concrete ledger: balances `a = 1, b = -1`
sum to zero with unique keys, and after settlement `a` holds `0`, within
`2 * eps`. -/
theorem C4_witness :
    (("a", (0 : ℚ)) ∈ applyTxns [("a", (1 : ℚ)), ("b", -1)] (simplify [("a", (1 : ℚ)), ("b", -1)]))
    ∧ |(("a", (0 : ℚ))).2| ≤ (([("a", (1 : ℚ)), ("b", -1)].length : ℚ)) * eps := by
  have hmem : ("a", (0 : ℚ)) ∈ applyTxns [("a", (1 : ℚ)), ("b", -1)]
      (simplify [("a", (1 : ℚ)), ("b", -1)]) := by
    norm_num +decide [simplify, goLoop, goF, sortDesc, insertDesc, debtorsOf, creditorsOf, eps,
      applyTxns, applyTxn, aupd, List.filter, List.foldr, List.foldl]
  exact ⟨hmem, C4_settlement_amended [("a", (1 : ℚ)), ("b", -1)] (by norm_num [sumVals])
    (by decide) ("a", (0 : ℚ)) hmem⟩

/-- C6: the equal-split scenario: three members `a`, `b`, `c`, one expense of
`90` paid by `a` with all three included at weight `1`, gives balances
`a = 60, b = -30, c = -30`, and `simplify` on those balances gives exactly
the two transfers `b` pays `a` `30` and `c` pays `a` `30`. -/
theorem C6_equal_split_scenario :
    calcBalances [Member.mk "a" "A", Member.mk "b" "B", Member.mk "c" "C"]
        [Expense.mk "e1" "dinner" 90 "a"
          [ExpenseParticipant.mk "a" 1 true, ExpenseParticipant.mk "b" 1 true,
            ExpenseParticipant.mk "c" 1 true] 0]
      = [("a", 60), ("b", -30), ("c", -30)]
    ∧ simplify [("a", 60), ("b", -30), ("c", -30)]
      = [Txn.mk "b" "a" 30, Txn.mk "c" "a" 30] := by
  constructor
  · norm_num +decide [calcBalances, applyExpense, aupd, List.filter, List.foldl, List.map]
  · norm_num +decide [simplify, goLoop, goF, sortDesc, insertDesc, debtorsOf, creditorsOf, eps,
      List.filter, List.foldr]

theorem keys_init (members : List Member) :
    keys (members.map (fun m => (m.id, (0 : ℚ)))) = members.map Member.id := by
  simp [keys, List.map_map, Function.comp]

theorem sumVals_init (members : List Member) :
    sumVals (members.map (fun m => (m.id, (0 : ℚ)))) = 0 := by
  induction members with
  | nil => rfl
  | cons m t ih => rw [List.map_cons, sumVals_cons, ih]; ring

theorem keys_debit_fold (A T : ℚ) : ∀ (L : List ExpenseParticipant) (b : SL),
    keys (L.foldl
      (fun b p => aupd b p.memberId (-(A * ((if p.weight = 0 then 1 else p.weight) / T)))) b)
      = keys b := by
  intro L
  induction L with
  | nil => intro b; rfl
  | cons p t ih => intro b; rw [List.foldl_cons, ih, keys_aupd]

theorem sumVals_debit_fold (A T : ℚ) : ∀ (L : List ExpenseParticipant) (b : SL),
    (keys b).Nodup → (∀ p ∈ L, p.memberId ∈ keys b) →
    sumVals (L.foldl
      (fun b p => aupd b p.memberId (-(A * ((if p.weight = 0 then 1 else p.weight) / T)))) b)
      = sumVals b - A * ((L.map (fun p => if p.weight = 0 then 1 else p.weight)).sum) / T := by
  intro L
  induction L with
  | nil => intro b _ _; simp
  | cons p t ih =>
    intro b hnd hmem
    rw [List.foldl_cons,
      ih (aupd b p.memberId (-(A * ((if p.weight = 0 then 1 else p.weight) / T))))
        (by rw [keys_aupd]; exact hnd)
        (fun q hq => by rw [keys_aupd]; exact hmem q (List.mem_cons_of_mem _ hq)),
      sumVals_aupd b p.memberId _ hnd (hmem p (List.mem_cons_self _ _)),
      List.map_cons, List.sum_cons]
    ring

theorem keys_applyExpense (bal : SL) (e : Expense) : keys (applyExpense bal e) = keys bal := by
  simp only [applyExpense]
  split_ifs with h hW
  · rfl
  · rw [keys_debit_fold, keys_aupd]
  · rw [keys_debit_fold, keys_aupd]

theorem sumVals_applyExpense (bal : SL) (e : Expense) (hnd : (keys bal).Nodup)
    (hpay : e.payerId ∈ keys bal)
    (hparts : ∀ p ∈ e.participants, p.memberId ∈ keys bal)
    (hwf : 0 < e.amount →
      e.participants.filter (fun p => p.included) ≠ [] ∧
      ((∀ p ∈ e.participants.filter (fun p => p.included), p.weight = 0) ∨
       (∀ p ∈ e.participants.filter (fun p => p.included), 0 < p.weight))) :
    sumVals (applyExpense bal e) = sumVals bal := by
  simp only [applyExpense]
  split_ifs with h hW
  · rfl
  · have hpos : 0 < e.amount := not_le.mp h
    rcases hwf hpos with ⟨hne, hcases⟩
    have hzero : ∀ p ∈ e.participants.filter (fun p => p.included), p.weight = 0 := by
      rcases hcases with hz | hpw
      · exact hz
      · exfalso
        have hsumpos : 0 < ((e.participants.filter (fun p => p.included)).map
            (fun p => p.weight)).sum := by
          apply List.sum_pos
          · intro x hx
            rcases List.mem_map.mp hx with ⟨p, hp, rfl⟩
            exact hpw p hp
          · simpa using hne
        exact absurd hW (ne_of_gt hsumpos)
    rw [sumVals_debit_fold _ _ _ _
        (by rw [keys_aupd]; exact hnd)
        (fun q hq => by
          rw [keys_aupd]
          exact hparts q (List.mem_of_mem_filter hq)),
      sumVals_aupd bal e.payerId e.amount hnd hpay]
    have hmap : (e.participants.filter (fun p => p.included)).map
        (fun p => if p.weight = 0 then 1 else p.weight)
        = (e.participants.filter (fun p => p.included)).map (fun _ => (1 : ℚ)) :=
      List.map_congr_left (fun p hp => if_pos (hzero p hp))
    have hlen : ((e.participants.filter (fun p => p.included)).length : ℚ) ≠ 0 := by
      have : 0 < (e.participants.filter (fun p => p.included)).length :=
        List.length_pos.mpr hne
      exact_mod_cast Nat.pos_iff_ne_zero.mp this
    rw [hmap, List.map_const', List.sum_replicate, nsmul_eq_mul, mul_one,
      mul_div_assoc, div_self hlen, mul_one]
    ring
  · have hpos : 0 < e.amount := not_le.mp h
    rcases hwf hpos with ⟨hne, hcases⟩
    have hposw : ∀ p ∈ e.participants.filter (fun p => p.included), 0 < p.weight := by
      rcases hcases with hz | hpw
      · exfalso
        exact hW (List.sum_eq_zero (fun x hx => by
          rcases List.mem_map.mp hx with ⟨p, hp, rfl⟩
          exact hz p hp))
      · exact hpw
    rw [sumVals_debit_fold _ _ _ _
        (by rw [keys_aupd]; exact hnd)
        (fun q hq => by
          rw [keys_aupd]
          exact hparts q (List.mem_of_mem_filter hq)),
      sumVals_aupd bal e.payerId e.amount hnd hpay]
    have hmap : (e.participants.filter (fun p => p.included)).map
        (fun p => if p.weight = 0 then 1 else p.weight)
        = (e.participants.filter (fun p => p.included)).map (fun p => p.weight) :=
      List.map_congr_left (fun p hp => if_neg (ne_of_gt (hposw p hp)))
    rw [hmap, mul_div_assoc, div_self hW, mul_one]
    ring

/-- C1 (amended): with unique member ids, all expense references inside the
member registry, and every positive expense carrying a nonempty included
participant set whose weights are either all zero (equal split) or all
positive, the balances of `calcBalances` sum exactly to zero. The original
claim, which assumed only reference containment, is refuted by
`C1_counterexample` (an expense with an empty included set still credits its
payer), and also fails for mixed zero and positive weights, where the
per-participant default weight `1` is not reflected in the divisor. -/
theorem C1_zero_sum_amended (members : List Member) (expenses : List Expense)
    (hnd : (members.map Member.id).Nodup)
    (href : ∀ e ∈ expenses, e.payerId ∈ members.map Member.id ∧
        ∀ p ∈ e.participants, p.memberId ∈ members.map Member.id)
    (hwf : ∀ e ∈ expenses, 0 < e.amount →
        e.participants.filter (fun p => p.included) ≠ [] ∧
        ((∀ p ∈ e.participants.filter (fun p => p.included), p.weight = 0) ∨
         (∀ p ∈ e.participants.filter (fun p => p.included), 0 < p.weight))) :
    sumVals (calcBalances members expenses) = 0 := by
  unfold calcBalances
  suffices h : ∀ (es : List Expense) (b : SL), (keys b).Nodup →
      keys b = members.map Member.id →
      (∀ e ∈ es, e.payerId ∈ members.map Member.id ∧
        ∀ p ∈ e.participants, p.memberId ∈ members.map Member.id) →
      (∀ e ∈ es, 0 < e.amount →
        e.participants.filter (fun p => p.included) ≠ [] ∧
        ((∀ p ∈ e.participants.filter (fun p => p.included), p.weight = 0) ∨
         (∀ p ∈ e.participants.filter (fun p => p.included), 0 < p.weight))) →
      sumVals (es.foldl applyExpense b) = sumVals b by
    rw [h expenses (members.map (fun m => (m.id, (0 : ℚ))))
      (by rw [keys_init]; exact hnd) (keys_init members) href hwf]
    exact sumVals_init members
  intro es
  induction es with
  | nil => intro b _ _ _ _; rfl
  | cons e t ih =>
    intro b hndb hkeysb hrefb hwfb
    rw [List.foldl_cons,
      ih (applyExpense b e)
        (by rw [keys_applyExpense]; exact hndb)
        (by rw [keys_applyExpense]; exact hkeysb)
        (fun u hu => hrefb u (List.mem_cons_of_mem _ hu))
        (fun u hu => hwfb u (List.mem_cons_of_mem _ hu))]
    exact sumVals_applyExpense b e hndb
      (by rw [hkeysb]; exact (hrefb e (List.mem_cons_self _ _)).1)
      (fun p hp => by rw [hkeysb]; exact (hrefb e (List.mem_cons_self _ _)).2 p hp)
      (hwfb e (List.mem_cons_self _ _))

/-- Counterexample to C1 as stated: a single member `a` and a single expense
of `90` paid by `a` whose only participant entry is not included. Every
reference lies in the member list, yet the balances sum to `90`, far beyond
any tolerance, because `calcBalances` credits the payer before checking that
some participant is included. -/
theorem C1_counterexample :
    ((Expense.mk "e1" "" 90 "a" [ExpenseParticipant.mk "a" 1 false] 0).payerId
        ∈ [Member.mk "a" "A"].map Member.id
      ∧ ∀ p ∈ (Expense.mk "e1" "" 90 "a" [ExpenseParticipant.mk "a" 1 false] 0).participants,
          p.memberId ∈ [Member.mk "a" "A"].map Member.id)
    ∧ calcBalances [Member.mk "a" "A"]
        [Expense.mk "e1" "" 90 "a" [ExpenseParticipant.mk "a" 1 false] 0]
      = [("a", 90)]
    ∧ ¬ |sumVals (calcBalances [Member.mk "a" "A"]
        [Expense.mk "e1" "" 90 "a" [ExpenseParticipant.mk "a" 1 false] 0])| ≤ 1 / 1000000 := by
  have hcb : calcBalances [Member.mk "a" "A"]
      [Expense.mk "e1" "" 90 "a" [ExpenseParticipant.mk "a" 1 false] 0] = [("a", 90)] := by
    norm_num +decide [calcBalances, applyExpense, aupd, List.filter, List.foldl, List.map]
  refine ⟨⟨by decide, by decide⟩, hcb, ?_⟩
  rw [hcb, show sumVals [("a", (90 : ℚ))] = 90 by norm_num [sumVals],
    abs_of_pos (by norm_num)]
  norm_num

/-- Witness for C1 (amended) at the equal-split scenario: the three balances
sum exactly to zero. -/
theorem C1_witness :
    sumVals (calcBalances [Member.mk "a" "A", Member.mk "b" "B", Member.mk "c" "C"]
      [Expense.mk "e1" "dinner" 90 "a"
        [ExpenseParticipant.mk "a" 1 true, ExpenseParticipant.mk "b" 1 true,
          ExpenseParticipant.mk "c" 1 true] 0]) = 0 := by
  apply C1_zero_sum_amended
  · decide
  · decide
  · intro e he
    rw [List.mem_singleton] at he
    subst he
    intro _
    refine ⟨by decide, Or.inr ?_⟩
    intro p hp
    fin_cases hp <;> norm_num

/-- C2, evaluated at the failing input: the expense of `90` paid by `a` has
an empty included participant set, yet `calcBalances` credits `a` with the
full `90` instead of contributing nothing (the ledger without the expense
leaves `a` at `0`). The zero-amount half of the claim is honoured by the
`amount <= 0` guard, shown here on a concrete ledger. -/
theorem C2_code_evaluation :
    (Expense.mk "e1" "" 90 "a" [ExpenseParticipant.mk "a" 1 false] 0).participants.filter
        (fun p => p.included) = []
    ∧ calcBalances [Member.mk "a" "A"]
        [Expense.mk "e1" "" 90 "a" [ExpenseParticipant.mk "a" 1 false] 0] = [("a", 90)]
    ∧ calcBalances [Member.mk "a" "A"] [] = [("a", 0)]
    ∧ applyExpense [("a", (5 : ℚ))]
        (Expense.mk "e2" "" 0 "a" [ExpenseParticipant.mk "a" 1 true] 0) = [("a", 5)] := by
  refine ⟨by decide, ?_, by norm_num [calcBalances], ?_⟩
  · norm_num +decide [calcBalances, applyExpense, aupd, List.filter, List.foldl, List.map]
  · norm_num [applyExpense]

/-- The post-state property claimed by C3: after `removeMember st id` no
remaining expense references `id` as payer or participant, and every expense
whose included participant set becomes empty through the removal is dropped
from the ledger. -/
abbrev removalCascadeOK (st : AppState) (id : String) : Prop :=
  (∀ e ∈ (removeMember st id).expenses,
      e.payerId ≠ id ∧ ∀ p ∈ e.participants, p.memberId ≠ id)
  ∧ ∀ e ∈ st.expenses,
      e.participants.filter (fun p => p.included) ≠ [] →
      e.participants.filter (fun p => p.included && (p.memberId != id)) = [] →
      e.id ∉ (removeMember st id).expenses.map Expense.id

/-- Counterexample to C3 as stated: removing the sole member `a` from a
state whose one expense is paid by `a` and has participants `a` (included)
and `b` (not included, a stale reference) keeps the expense, because the
code tests the whole participant list rather than the included set, and
keeps `payerId = "a"`, because no other member exists to reassign to. -/
theorem C3_counterexample :
    ("a" ∈ (AppState.mk [Member.mk "a" "A"]
        [Expense.mk "e1" "d" 10 "a"
          [ExpenseParticipant.mk "a" 1 true, ExpenseParticipant.mk "b" 1 false] 0]).members.map
          Member.id)
    ∧ ¬ removalCascadeOK (AppState.mk [Member.mk "a" "A"]
        [Expense.mk "e1" "d" 10 "a"
          [ExpenseParticipant.mk "a" 1 true, ExpenseParticipant.mk "b" 1 false] 0]) "a" := by
  constructor
  · decide
  · decide

theorem filter_map_comm {α β : Type} (f : α → β) (q : β → Bool) (l : List α) :
    (l.map f).filter q = (l.filter (fun a => q (f a))).map f := by
  induction l with
  | nil => rfl
  | cons a t ih =>
    simp only [List.map_cons, List.filter_cons]
    by_cases h : q (f a) = true
    · rw [if_pos h, if_pos h, List.map_cons, ih]
    · rw [if_neg h, if_neg h, ih]

/-- C3 (amended): what `removeMember` actually guarantees. Assume every
registry member id is a nonempty string (the registry invariant: generated
ids are nonempty, but the hypothesis cannot be dropped, because `find?` may
hit an empty-id member whose falsy id makes the `|| e.payerId` fallback keep
the removed payer even when another member remains) and that some member
other than `id` exists. Then no surviving expense references `id` in a
participant share or as payer; and the surviving ledger consists of the
pruned versions of exactly those original expenses whose whole participant
list stays nonempty after dropping the shares of `id` — so an expense is
dropped precisely when its entire participant list empties, and an expense
retaining only non-included participants survives even though its included
set became empty, which together with the sole-member payer fallback refutes
the original claim. -/
theorem C3_removal_amended (st : AppState) (id : String)
    (hids : ∀ m ∈ st.members, m.id ≠ "")
    (hother : ∃ m ∈ st.members, m.id ≠ id) :
    (∀ e ∈ (removeMember st id).expenses,
        e.payerId ≠ id ∧ ∀ p ∈ e.participants, p.memberId ≠ id)
    ∧ (∀ e ∈ (removeMember st id).expenses, e.participants ≠ [])
    ∧ (removeMember st id).expenses
        = (st.expenses.filter
            (fun e => e.participants.filter (fun p => p.memberId ≠ id) ≠ [])).map
          (fun e =>
            { e with
              participants := e.participants.filter (fun p => p.memberId ≠ id)
              payerId :=
                if e.payerId = id then
                  match st.members.find? (fun m => m.id != id) with
                  | some m => if m.id = "" then e.payerId else m.id
                  | none => e.payerId
                else e.payerId }) := by
  refine ⟨?_, ?_, ?_⟩
  · intro e he
    simp only [removeMember] at he
    rcases List.mem_filter.mp he with ⟨hmap, hlen⟩
    rcases List.mem_map.mp hmap with ⟨e0, he0, rfl⟩
    constructor
    · dsimp only
      by_cases hpay : e0.payerId = id
      · rw [if_pos hpay]
        rcases hother with ⟨m0, hm0, hm0ne⟩
        have hsome : (st.members.find? (fun m => m.id != id)).isSome := by
          rw [List.find?_isSome]
          exact ⟨m0, hm0, by simpa using hm0ne⟩
        rcases Option.isSome_iff_exists.mp hsome with ⟨m1, hm1⟩
        rw [hm1]
        show (if m1.id = "" then e0.payerId else m1.id) ≠ id
        have hm1ne : m1.id ≠ id := by simpa using List.find?_some hm1
        have hm1mem : m1 ∈ st.members := List.mem_of_find?_eq_some hm1
        rw [if_neg (hids m1 hm1mem)]
        exact hm1ne
      · rw [if_neg hpay]
        exact hpay
    · intro p hp
      dsimp only at hp
      have := List.of_mem_filter hp
      simpa using this
  · intro e he
    simp only [removeMember] at he
    rcases List.mem_filter.mp he with ⟨hmap, hlen⟩
    have hpos : 0 < e.participants.length := by simpa using hlen
    exact List.ne_nil_of_length_pos hpos
  · show (st.expenses.map _).filter _ = _
    rw [filter_map_comm]
    congr 1
    apply List.filter_congr
    intro e _
    show decide (0 < (e.participants.filter (fun p => p.memberId ≠ id)).length)
      = decide (e.participants.filter (fun p => p.memberId ≠ id) ≠ [])
    cases e.participants.filter (fun p => p.memberId ≠ id) <;> simp

/-- Witness for C3 (amended): removing `a` with another member `b` present
(all ids nonempty) cleans every reference to `a` and keeps participant lists
nonempty. -/
theorem C3_witness :
    (∀ e ∈ (removeMember (AppState.mk [Member.mk "a" "A", Member.mk "b" "B"]
        [Expense.mk "e1" "d" 10 "a"
          [ExpenseParticipant.mk "a" 1 true, ExpenseParticipant.mk "b" 1 true] 0]) "a").expenses,
        e.payerId ≠ "a" ∧ ∀ p ∈ e.participants, p.memberId ≠ "a")
    ∧ ∀ e ∈ (removeMember (AppState.mk [Member.mk "a" "A", Member.mk "b" "B"]
        [Expense.mk "e1" "d" 10 "a"
          [ExpenseParticipant.mk "a" 1 true, ExpenseParticipant.mk "b" 1 true] 0]) "a").expenses,
        e.participants ≠ [] := by
  have h := C3_removal_amended
    (AppState.mk [Member.mk "a" "A", Member.mk "b" "B"]
      [Expense.mk "e1" "d" 10 "a"
        [ExpenseParticipant.mk "a" 1 true, ExpenseParticipant.mk "b" 1 true] 0]) "a"
    (by decide) (by decide)
  exact ⟨h.1, h.2.1⟩

/-- Counterexample to C7 as stated: the id generator is `Math.random`-based
and `addMember` never checks it against existing ids, so feeding the
generated value `x` to a registry already holding id `x` performs a
"successful" add (the name `B` is nonempty) yet produces a duplicate id. -/
theorem C7_counterexample :
    addMember "x" [Member.mk "x" "A"] "B" = [Member.mk "x" "A", Member.mk "x" "B"]
    ∧ ¬ ((addMember "x" [Member.mk "x" "A"] "B").map Member.id).Nodup := by
  constructor
  · decide
  · decide

/-- C7 (amended): adding a member whose name is empty after trimming is a
silent no-op (no error is signalled, the list is unchanged); a nonempty
trimmed name appends one member carrying the generated id and the trimmed
name. Freshness of the id is not guaranteed. -/
theorem C7_add_amended (newId : String) (members : List Member) (memberName : String) :
    (jsTrim memberName = "" → addMember newId members memberName = members)
    ∧ (jsTrim memberName ≠ "" →
        addMember newId members memberName
          = members ++ [Member.mk newId (jsTrim memberName)]) := by
  constructor
  · intro h
    simp [addMember, h]
  · intro h
    simp [addMember, h]

/-- Witness for C7 (amended): adding `" B "` trims to `"B"` and appends. -/
theorem C7_witness :
    addMember "z" [Member.mk "x" "A"] " B " = [Member.mk "x" "A", Member.mk "z" "B"] := by
  have h := (C7_add_amended "z" [Member.mk "x" "A"] " B ").2 (by decide)
  rw [h]
  decide

/-- C8: the import replaces the state exactly when both top-level fields
`members` and `expenses` are present and array-typed; whenever either field
is missing or not an array (or the parsed value is not an object, or is
`null`, whose property access throws into the caught branch), the state is
left unchanged. -/
theorem C8_import_validation (data : JVal) (st : JVal × JVal) :
    (∀ ms es, getProp data "members" = some (JVal.jarr ms) →
        getProp data "expenses" = some (JVal.jarr es) →
        importJSON data st = (JVal.jarr ms, JVal.jarr es))
    ∧ (¬ (hasArrayField data "members" ∧ hasArrayField data "expenses") →
        importJSON data st = st) := by
  constructor
  · intro ms es hm he
    cases data with
    | jnull => simp [getProp] at hm
    | jbool b => simp [getProp] at hm
    | jnum q => simp [getProp] at hm
    | jstr s => simp [getProp] at hm
    | jarr xs => simp [getProp] at hm
    | jobj fs =>
      simp only [getProp] at hm he
      simp [importJSON, getProp, hm, he]
  · intro hno
    cases data with
    | jnull => rfl
    | jbool b => rfl
    | jnum q => rfl
    | jstr s => rfl
    | jarr xs => rfl
    | jobj fs =>
      rcases hmm : lookupLast fs "members" with _ | mv
      · simp [importJSON, getProp, hmm]
      · rcases hee : lookupLast fs "expenses" with _ | ev
        · cases mv <;> simp [importJSON, getProp, hmm, hee]
        · cases mv with
          | jarr ms =>
            cases ev with
            | jarr es =>
              exact absurd ⟨⟨ms, by simp [getProp, hmm]⟩, ⟨es, by simp [getProp, hee]⟩⟩ hno
            | jnull => simp [importJSON, getProp, hmm, hee]
            | jbool b => simp [importJSON, getProp, hmm, hee]
            | jnum q => simp [importJSON, getProp, hmm, hee]
            | jstr s => simp [importJSON, getProp, hmm, hee]
            | jobj gs => simp [importJSON, getProp, hmm, hee]
          | jnull => cases ev <;> simp [importJSON, getProp, hmm, hee]
          | jbool b => cases ev <;> simp [importJSON, getProp, hmm, hee]
          | jnum q => cases ev <;> simp [importJSON, getProp, hmm, hee]
          | jstr s => cases ev <;> simp [importJSON, getProp, hmm, hee]
          | jobj gs => cases ev <;> simp [importJSON, getProp, hmm, hee]

/-- Witness for C8: a well-formed import replaces the state with the two
arrays; an import missing the `expenses` field leaves the state unchanged. -/
theorem C8_witness :
    importJSON (JVal.jobj [("members", JVal.jarr []), ("expenses", JVal.jarr [JVal.jnull])])
        (JVal.jnull, JVal.jnull)
      = (JVal.jarr [], JVal.jarr [JVal.jnull])
    ∧ importJSON (JVal.jobj [("members", JVal.jarr [])]) (JVal.jnull, JVal.jnull)
      = (JVal.jnull, JVal.jnull) := by
  constructor
  · exact (C8_import_validation (JVal.jobj [("members", JVal.jarr []),
      ("expenses", JVal.jarr [JVal.jnull])]) (JVal.jnull, JVal.jnull)).1 [] [JVal.jnull] rfl rfl
  · refine (C8_import_validation (JVal.jobj [("members", JVal.jarr [])])
      (JVal.jnull, JVal.jnull)).2 ?_
    rintro ⟨-, ⟨xs, hx⟩⟩
    simp +decide [getProp, lookupLast] at hx

end Splitter
